import Mathlib

/-!
Verification development for the procedural planet height-field synthesizer
(C++ core under `src/cpp`, helpers in `util.hpp`, JS host in `main.js`).

The embedding is shallow and exact: C++ `float` arithmetic is modelled by
exact rational arithmetic over `ℚ`, machine 32-bit unsigned integers by
natural numbers reduced `% 2^32` at the operations where wraparound can
occur, and the global mutable state of `planet.cpp` / `noise.cpp` by an
explicit `PlanetState` record threaded through the operations.  `sqrtf`
(used only by `normalize` in `util.hpp`) has no exact rational counterpart,
so every definition that normalizes takes the square-root function as an
explicit parameter `sq : ℚ → ℚ`; theorems hold for an arbitrary such
function (hence in particular for the machine one), with the few facts a
statement needs about it (`sq 0 = 0`, `sq 1 = 1`, exactness on the length
actually taken) as explicit hypotheses.
-/

set_option maxRecDepth 40000

namespace Planet

/-- `Vec3` from `util.hpp`: a 3-component vector. -/
structure Vec3 where
  x : ℚ
  y : ℚ
  z : ℚ
deriving DecidableEq

/-- `clampf` from `util.hpp`. -/
def clampf (v lo hi : ℚ) : ℚ :=
  if v < lo then lo else if hi < v then hi else v

/-- `lerp` from `util.hpp` (also `lerpf` in `noise.cpp`): linear interpolation. -/
def lerpf (a b t : ℚ) : ℚ := a + t * (b - a)

/-- `smoothstep` from `util.hpp`: cubic Hermite blend on the clamped factor. -/
def smoothstep (edge0 edge1 x : ℚ) : ℚ :=
  let t := clampf ((x - edge0) / (edge1 - edge0)) 0 1
  t * t * (3 - 2 * t)

/-- squared length of a `Vec3` (the value under the square root in
`normalize` of `util.hpp`). -/
def len2 (v : Vec3) : ℚ := v.x * v.x + v.y * v.y + v.z * v.z

/-- `normalize` from `util.hpp`: divide by the length when it exceeds `1e-9`,
otherwise return the zero vector.  `sq` stands for `sqrtf`. -/
def normalize (sq : ℚ → ℚ) (v : Vec3) : Vec3 :=
  let len := sq (len2 v)
  if len ≤ 1 / 1000000000 then ⟨0, 0, 0⟩
  else ⟨v.x / len, v.y / len, v.z / len⟩

/-- `hash32` from `util.hpp`: avalanche integer mixing on `uint32_t`.
Addition and multiplication wrap modulo `2^32`; xor and right shifts of
values below `2^32` stay below `2^32` on their own. -/
def hash32 (x0 : ℕ) : ℕ :=
  let x1 := (x0 ^^^ 61) ^^^ (x0 >>> 16)
  let x2 := (x1 + (x1 <<< 3)) % 4294967296
  let x3 := x2 ^^^ (x2 >>> 4)
  let x4 := (x3 * 0x27d4eb2d) % 4294967296
  x4 ^^^ (x4 >>> 15)

/-- `hash01` from `util.hpp`: the low 24 bits of the mixed word as a
fraction in `[0,1)`.  The `uint32_t` sum `seed + salt` wraps modulo `2^32`. -/
def hash01 (seed salt : ℕ) : ℚ :=
  ((hash32 ((seed + salt) % 4294967296)) &&& 0xFFFFFF : ℕ) / (16777216 : ℚ)

/-- `randomRange` from `util.hpp`: map `(seed, salt)` into `[a, b)`. -/
def randomRange (seed salt : ℕ) (a b : ℚ) : ℚ :=
  a + (b - a) * hash01 seed salt

/-- C truncation toward zero, the semantics of the `(int)` casts in
`generateNoiseParams` (all cast operands there are nonnegative). -/
def ctrunc (q : ℚ) : ℤ := if 0 ≤ q then ⌊q⌋ else -⌊-q⌋

/-- `NoiseParams` from `planet.cpp` / `noise_params.cpp`. -/
structure NoiseParams where
  macroFreq : ℚ
  macroOctaves : ℤ
  macroAmp : ℚ
  microFreq : ℚ
  microOctaves : ℤ
  microAmp : ℚ
  ridgeFreq : ℚ
  ridgeOctaves : ℤ
  ridgeAmp : ℚ
  lacunarity : ℚ
  gain : ℚ
deriving DecidableEq

/-- `generateNoiseParams` from `noise_params.cpp` (its helper `r` inlined:
it forwards to `randomRange`). -/
def generateNoiseParams (seed : ℕ) : NoiseParams where
  macroFreq := randomRange seed 11 (3/100) (18/100)
  macroOctaves := ctrunc (randomRange seed 12 2 5)
  macroAmp := randomRange seed 13 (6/10) (16/10)
  microFreq := randomRange seed 21 (8/10) 3
  microOctaves := ctrunc (randomRange seed 22 2 6)
  microAmp := randomRange seed 23 (5/100) (5/10)
  ridgeFreq := randomRange seed 31 (6/10) (25/10)
  ridgeOctaves := ctrunc (randomRange seed 32 1 4)
  ridgeAmp := randomRange seed 33 (2/10) (12/10)
  lacunarity := randomRange seed 41 (18/10) (22/10)
  gain := randomRange seed 42 (35/100) (6/10)

/-- One element swap on a list, reading both cells before writing
(the JS destructuring swap in `js_planet.js`; out-of-range reads give `0`). -/
def swapL (l : List ℤ) (i j : ℕ) : List ℤ :=
  let a := l.getD i 0
  let b := l.getD j 0
  (l.set i b).set j a

/-- Modelled from the spec: the C++ `initNoise` shuffles with
`std::mt19937` + `std::shuffle`, library code that is not part of the
repository; §4.2 only requires a seeded Fisher–Yates driven by a sequential
PRNG that is seeded once per build and fully determined by the seed.  We
take the repository's own JS port of the same table builder
(`js_planet.js`, `init`): a linear congruential generator
`val ← (val * 1664525 + 1013904223) mod 2^32` drawn once per step, with
`j = ⌊(val / 2^32) · (i+1)⌋ = val·(i+1) / 2^32` (integer division, exact
for this dyadic fraction).  `fyAux l val i` performs the loop iterations
`i, i-1, …, 1` of the downward Fisher–Yates pass. -/
def fyAux : List ℤ → ℕ → ℕ → List ℤ
  | l, _, 0 => l
  | l, val, Nat.succ k =>
      let i := k + 1
      let nval := (val * 1664525 + 1013904223) % 4294967296
      let j := (nval * (i + 1)) / 4294967296
      fyAux (swapL l i j) nval k

/-- The shuffled first half of the table: identity `0..255`, then the
seeded Fisher–Yates pass (`initNoise` in `noise.cpp`, steps 1 and 2). -/
def shuffledHalf (seed : ℕ) : List ℤ :=
  fyAux ((List.range 256).map Int.ofNat) (seed % 4294967296) 255

/-- The full 512-entry permutation table built by `initNoise` in
`noise.cpp`: the shuffled 256 entries duplicated into indices 256..511. -/
def buildPermTable (seed : ℕ) : List ℤ :=
  shuffledHalf seed ++ shuffledHalf seed

/-- The process-wide mutable state of `noise.cpp` and `planet.cpp`:
`perm_table`, `perm_inited`, `PARAMS`, `GLOBAL_SEED`, `GLOBAL_SCALE`,
`GLOBAL_RADIUS`. -/
structure PlanetState where
  permTable : List ℤ
  permInited : Bool
  params : NoiseParams
  seed : ℕ
  scale : ℚ
  radius : ℚ

/-- The state before any call: C++ zero-initializes the static table and
`PARAMS`, `perm_inited` is `false`, and `GLOBAL_SCALE`/`GLOBAL_RADIUS`
start at `1.0f` (`GLOBAL_SEED` at `0`). -/
def initialState : PlanetState where
  permTable := List.replicate 512 0
  permInited := false
  params := ⟨0, 0, 0, 0, 0, 0, 0, 0, 0, 0, 0⟩
  seed := 0
  scale := 1
  radius := 1

/-- `initNoise` from `noise.cpp` as a state transformer: rebuild the whole
512-entry table from the seed and set `perm_inited`. -/
def initNoiseState (seed : ℕ) (st : PlanetState) : PlanetState :=
  { st with permTable := buildPermTable seed, permInited := true }

/-- `init_planet` from `planet.cpp`: store seed/scale/radius (the `int`
seed is converted to `uint32_t`, i.e. reduced modulo `2^32`), rebuild the
noise table, and regenerate `PARAMS`.  Every field of the state is freshly
written, so the result does not depend on the previous state. -/
def init_planet (seed : ℤ) (scale radius : ℚ) (_prev : PlanetState) : PlanetState :=
  let s32 := (seed.emod 4294967296).toNat
  { permTable := buildPermTable s32
    permInited := true
    params := generateNoiseParams s32
    seed := s32
    scale := scale
    radius := radius }

/-- Reading `perm_table[i]` for a nonnegative `int` index: list lookup with
default `0` (the proofs establish separately that every index used is in
range, claim C10). -/
def tblGet (t : List ℤ) (i : ℤ) : ℤ := t.getD i.toNat 0

/-- `fadef` from `noise.cpp`: the quintic fade curve `6t^5 - 15t^4 + 10t^3`. -/
def fadef (t : ℚ) : ℚ := t * t * t * (t * (t * 6 - 15) + 10)

/-- `grad` from `noise.cpp`.  `hash & 15` on a two's-complement `int` is
`hash.emod 16`; likewise `h & 1` tests `h.emod 2 = 1` and `h & 2` tests
`2 ≤ h.emod 4`, for the `h ∈ [0,16)` produced by the mask. -/
def grad (hash : ℤ) (x y z : ℚ) : ℚ :=
  let h := hash.emod 16
  let u := if h < 8 then x else y
  let v := if h < 4 then y else if h = 12 then x else if h = 14 then x else z
  (if h.emod 2 = 1 then -u else u) + (if 2 ≤ h.emod 4 then -v else v)

/-- The body of `perlin` from `noise.cpp` after the coordinate split:
`X Y Z` are the masked lattice cell coordinates and `xf yf zf` the
fractional offsets.  Hash indices and the 8-corner trilinear interpolation
exactly as in the source. -/
def perlinLattice (t : List ℤ) (X Y Z : ℤ) (xf yf zf : ℚ) : ℚ :=
  let u := fadef xf
  let v := fadef yf
  let w := fadef zf
  let A := tblGet t X + Y
  let AA := tblGet t A + Z
  let AB := tblGet t (A + 1) + Z
  let B := tblGet t (X + 1) + Y
  let BA := tblGet t B + Z
  let BB := tblGet t (B + 1) + Z
  lerpf
    (lerpf
      (lerpf (grad (tblGet t AA) xf yf zf)
             (grad (tblGet t BA) (xf - 1) yf zf) u)
      (lerpf (grad (tblGet t AB) xf (yf - 1) zf)
             (grad (tblGet t BB) (xf - 1) (yf - 1) zf) u)
      v)
    (lerpf
      (lerpf (grad (tblGet t (AA + 1)) xf yf (zf - 1))
             (grad (tblGet t (BA + 1)) (xf - 1) yf (zf - 1)) u)
      (lerpf (grad (tblGet t (AB + 1)) xf (yf - 1) (zf - 1))
             (grad (tblGet t (BB + 1)) (xf - 1) (yf - 1) (zf - 1)) u)
      v)
    w

/-- `perlin` from `noise.cpp` over a given table: split each coordinate
into the lattice cell `(int)floor(x) & 255` (two's-complement masking is
`emod 256`) and the fractional part `x - floor(x)`, then interpolate.
The lazy default-seed initialization of the C++ function is modelled at the
state level by `perlinRun` below. -/
def perlin (t : List ℤ) (x y z : ℚ) : ℚ :=
  perlinLattice t ((⌊x⌋ : ℤ).emod 256) ((⌊y⌋ : ℤ).emod 256) ((⌊z⌋ : ℤ).emod 256)
    (x - (⌊x⌋ : ℤ)) (y - (⌊y⌋ : ℤ)) (z - (⌊z⌋ : ℤ))

/-- Every index at which `perlin` reads `perm_table`, in evaluation order:
the masked cell coordinates and their `+1` offsets feed `A`/`B`, which feed
the corner hashes `AA AB BA BB` and their `+1` offsets. -/
def perlinIndices (t : List ℤ) (x y z : ℚ) : List ℤ :=
  let X := (⌊x⌋ : ℤ).emod 256
  let Y := (⌊y⌋ : ℤ).emod 256
  let Z := (⌊z⌋ : ℤ).emod 256
  let A := tblGet t X + Y
  let AA := tblGet t A + Z
  let AB := tblGet t (A + 1) + Z
  let B := tblGet t (X + 1) + Y
  let BA := tblGet t B + Z
  let BB := tblGet t (B + 1) + Z
  [X, X + 1, A, A + 1, B, B + 1, AA, AA + 1, AB, AB + 1, BA, BA + 1, BB, BB + 1]

/-- The loop of `fbm` from `noise.cpp`: `n` octaves left to run, carrying
`amplitude`, `frequency`, `sum`, `maxAmp`; returns the final
`(sum, maxAmp)`. -/
def fbmAux (t : List ℤ) (x y z lac gain : ℚ) :
    ℕ → ℚ → ℚ → ℚ → ℚ → ℚ × ℚ
  | 0, _, _, sum, maxAmp => (sum, maxAmp)
  | Nat.succ k, amp, freq, sum, maxAmp =>
      let n0 := perlin t (x * freq) (y * freq) (z * freq)
      let n1 := n0 * (1/2) + 1/2
      fbmAux t x y z lac gain k (amp * gain) (freq * lac)
        (sum + n1 * amp) (maxAmp + amp)

/-- `fbm` from `noise.cpp`: octave sum of remapped perlin samples,
normalized by the accumulated amplitude, `0` when that amplitude is `0`
(in particular for `octaves ≤ 0`, where the loop does not run). -/
def fbm (t : List ℤ) (x y z : ℚ) (octaves : ℤ) (lac gain : ℚ) : ℚ :=
  let r := fbmAux t x y z lac gain octaves.toNat 1 1 0 0
  if r.2 = 0 then 0 else r.1 / r.2

/-- The loop of `ridged_fbm` from `noise.cpp`: carries `sum`, `frequency`,
`amplitude` and the octave-to-octave `weight`. -/
def ridgedAux (t : List ℤ) (x y z lac gain : ℚ) :
    ℕ → ℚ → ℚ → ℚ → ℚ → ℚ
  | 0, sum, _, _, _ => sum
  | Nat.succ k, sum, freq, amp, weight =>
      let n0 := perlin t (x * freq) (y * freq) (z * freq)
      let n1 := 1 - |n0|
      let n2 := n1 * n1
      let n3 := n2 * weight
      ridgedAux t x y z lac gain k (sum + n3 * amp) (freq * lac)
        (amp * (1/2)) (clampf (n3 * gain) 0 1)

/-- `ridged_fbm` from `noise.cpp`: sharpened, weight-carried octave sum. -/
def ridged_fbm (t : List ℤ) (x y z : ℚ) (octaves : ℤ) (lac gain : ℚ) : ℚ :=
  ridgedAux t x y z lac gain octaves.toNat 0 1 1 1

/-- `get_height` from `planet.cpp` (value part; the state effect of the
lazy table default is `get_heightRun` below): normalize the direction,
evaluate the macro/micro/ridge layers, apply the continent mask and the
polar boost, subtract the sea level and scale. -/
def get_height (sq : ℚ → ℚ) (st : PlanetState) (x y z : ℚ) : ℚ :=
  let n := normalize sq ⟨x, y, z⟩
  let p := st.params
  let macroV := fbm st.permTable (n.x * p.macroFreq) (n.y * p.macroFreq)
    (n.z * p.macroFreq) p.macroOctaves p.lacunarity p.gain * p.macroAmp
  let microV := fbm st.permTable (n.x * p.microFreq) (n.y * p.microFreq)
    (n.z * p.microFreq) p.microOctaves p.lacunarity p.gain * p.microAmp
  let ridgeV := ridged_fbm st.permTable (n.x * p.ridgeFreq) (n.y * p.ridgeFreq)
    (n.z * p.ridgeFreq) p.ridgeOctaves p.lacunarity p.gain * p.ridgeAmp
  let continentMask := smoothstep (35/100) (65/100) macroV
  let lat := |n.y|
  let polarBoost := smoothstep (6/10) (95/100) lat * (8/100)
  let height := macroV * (65/100) + microV * (30/100)
    + ridgeV * continentMask * (6/10) + polarBoost
  let height2 := height - 45/100
  height2 * st.scale

/-- `get_final_position` from `planet.cpp`: normalize, take the height at
the normalized direction, push the unit direction out to
`GLOBAL_RADIUS + h` (the two output pointer writes become a `Vec3`). -/
def get_final_position (sq : ℚ → ℚ) (st : PlanetState) (v : Vec3) : Vec3 :=
  let n := normalize sq v
  let h := get_height sq st n.x n.y n.z
  let r := st.radius + h
  ⟨n.x * r, n.y * r, n.z * r⟩

/-- A vector scaled by a rational (`normalize(direction) * (radius+height)`
in §4.6 of the spec). -/
def scaleV (v : Vec3) (r : ℚ) : Vec3 := ⟨v.x * r, v.y * r, v.z * r⟩

/-- §4.6 of the spec, written as the spec words it: steps 1-6 compute the
layers on the normalized direction, step 7 is the single formula
`macro*0.65 + micro*0.30 + ridge*continentMask*0.6 + polarBoost - 0.45`
followed by the multiplication with the session scale. -/
def specHeight (sq : ℚ → ℚ) (st : PlanetState) (x y z : ℚ) : ℚ :=
  let dir := normalize sq ⟨x, y, z⟩
  let p := st.params
  let macroV := fbm st.permTable (dir.x * p.macroFreq) (dir.y * p.macroFreq)
    (dir.z * p.macroFreq) p.macroOctaves p.lacunarity p.gain * p.macroAmp
  let microV := fbm st.permTable (dir.x * p.microFreq) (dir.y * p.microFreq)
    (dir.z * p.microFreq) p.microOctaves p.lacunarity p.gain * p.microAmp
  let ridgeV := ridged_fbm st.permTable (dir.x * p.ridgeFreq) (dir.y * p.ridgeFreq)
    (dir.z * p.ridgeFreq) p.ridgeOctaves p.lacunarity p.gain * p.ridgeAmp
  let continentMask := smoothstep (35/100) (65/100) macroV
  let polarBoost := smoothstep (6/10) (95/100) |dir.y| * (8/100)
  (macroV * (65/100) + microV * (30/100) + ridgeV * continentMask * (6/10)
    + polarBoost - 45/100) * st.scale

/-- Modelled from the spec: `apply_displacement_batch`, the exported C++
batch entry point that `main.js` (`applyDisplacement`) invokes on the flat
`HEAPF32` vertex buffer, is not among the repository's source files; §6
specifies it as applying `finalPosition` to every point of the sequence in
order.  The buffer is a flat list of coordinates processed in consecutive
(x, y, z) triples, `count` triples in all, each rewritten in place. -/
def apply_displacement_batch (sq : ℚ → ℚ) (st : PlanetState) :
    ℕ → List ℚ → List ℚ
  | 0, buf => buf
  | Nat.succ k, buf =>
      match buf with
      | x :: y :: z :: rest =>
          let p := get_final_position sq st ⟨x, y, z⟩
          p.x :: p.y :: p.z :: apply_displacement_batch sq st k rest
      | short => short

/-- The flat coordinate buffer holding a list of points, three floats per
vertex, as `main.js` lays it out in `HEAPF32`. -/
def flattenPoints : List Vec3 → List ℚ
  | [] => []
  | v :: vs => v.x :: v.y :: v.z :: flattenPoints vs

/-- The state as seen by the table lookups inside one noise evaluation:
`perlin` lazily runs `initNoise(0)` when `perm_inited` is still false
(`noise.cpp` line 103), after which the state is stable. -/
def effState (st : PlanetState) : PlanetState :=
  if st.permInited then st else initNoiseState 0 st

/-- `perlin` together with its effect on the global state: the lazy
default-seed initialization happens exactly when no table was ever built. -/
def perlinRun (st : PlanetState) (x y z : ℚ) : ℚ × PlanetState :=
  let st1 := effState st
  (perlin st1.permTable x y z, st1)

/-- `get_height` together with its effect on the global state.  Its only
side effect is `perlin`'s lazy default initialization, which fires iff some
octave actually samples the noise; the value always equals the pure height
over the effective table (a zero-octave `fbm`/`ridged_fbm` never reads the
table). -/
def get_heightRun (sq : ℚ → ℚ) (st : PlanetState) (x y z : ℚ) :
    ℚ × PlanetState :=
  if 1 ≤ st.params.macroOctaves ∨ 1 ≤ st.params.microOctaves
      ∨ 1 ≤ st.params.ridgeOctaves then
    (get_height sq (effState st) x y z, effState st)
  else
    (get_height sq st x y z, st)

/-- `get_final_position` together with its effect on the global state
(through the inner `get_height` call). -/
def get_final_positionRun (sq : ℚ → ℚ) (st : PlanetState) (v : Vec3) :
    Vec3 × PlanetState :=
  let n := normalize sq v
  let r := get_heightRun sq st n.x n.y n.z
  (⟨n.x * (st.radius + r.1), n.y * (st.radius + r.1), n.z * (st.radius + r.1)⟩, r.2)

/-- The permutation-table invariant of the spec's data model (§3): the
first 256 entries are a permutation of `0..255` and the whole table is that
half duplicated (claim C9 shows every `initNoise` output satisfies it). -/
def PermTableOK (t : List ℤ) : Prop :=
  List.Perm (t.take 256) ((List.range 256).map Int.ofNat)
    ∧ t = t.take 256 ++ t.take 256

/-- The identity permutation half `0..255` (a concrete valid table half,
used as witness input). -/
def rangeHalf : List ℤ := (List.range 256).map Int.ofNat

/-- The identity permutation table duplicated to 512 entries. -/
def rangeTable : List ℤ := rangeHalf ++ rangeHalf

/-- A concrete permutation of `0..255`, arranged so that in the lattice
cell at the origin the eight corner gradients all point along the sampled
offsets: with this table `perlin` exceeds `1` (the claimed upper bound of
the remapped octave samples), refuting `fbm ∈ [0,1]`. -/
def cexPerm : List ℤ :=
  [10, 30, 0, 1, 2, 4, 6, 12, 13, 14, 50, 70, 15, 16, 17, 18, 20, 21, 22, 23,
   24, 25, 27, 28, 29, 31, 32, 33, 34, 35, 90, 110, 36, 37, 38, 39, 40, 41,
   42, 43, 44, 45, 46, 47, 48, 49, 51, 52, 53, 54, 8, 26, 55, 56, 57, 58, 59,
   60, 61, 62, 63, 64, 65, 66, 67, 68, 69, 71, 72, 73, 9, 11, 74, 75, 76, 77,
   78, 79, 80, 81, 82, 83, 84, 85, 86, 87, 88, 89, 91, 92, 5, 7, 93, 94, 95,
   96, 97, 98, 99, 100, 101, 102, 103, 104, 105, 106, 107, 108, 109, 111, 3,
   19, 112, 113, 114, 115, 116, 117, 118, 119, 120, 121, 122, 123, 124, 125,
   126, 127, 128, 129, 130, 131, 132, 133, 134, 135, 136, 137, 138, 139, 140,
   141, 142, 143, 144, 145, 146, 147, 148, 149, 150, 151, 152, 153, 154, 155,
   156, 157, 158, 159, 160, 161, 162, 163, 164, 165, 166, 167, 168, 169, 170,
   171, 172, 173, 174, 175, 176, 177, 178, 179, 180, 181, 182, 183, 184, 185,
   186, 187, 188, 189, 190, 191, 192, 193, 194, 195, 196, 197, 198, 199, 200,
   201, 202, 203, 204, 205, 206, 207, 208, 209, 210, 211, 212, 213, 214, 215,
   216, 217, 218, 219, 220, 221, 222, 223, 224, 225, 226, 227, 228, 229, 230,
   231, 232, 233, 234, 235, 236, 237, 238, 239, 240, 241, 242, 243, 244, 245,
   246, 247, 248, 249, 250, 251, 252, 253, 254, 255]

/-- `cexPerm` duplicated into a full 512-entry table. -/
def cexTable : List ℤ := cexPerm ++ cexPerm

/-- A concrete square-root function for witnesses: exact on the few values
the witness vectors produce, `0` elsewhere. -/
def sqrtW (q : ℚ) : ℚ :=
  if q = 0 then 0 else if q = 1 then 1 else if q = 25 then 5 else 0

/-! ### Bounds on the noise primitives -/

theorem fadef_nonneg {s : ℚ} (h0 : 0 ≤ s) : 0 ≤ fadef s := by
  have hq : 0 ≤ s * s * 6 - 15 * s + 75 / 8 := by nlinarith [sq_nonneg (s - 5/4)]
  have hc : 0 ≤ s * s * s := mul_nonneg (mul_nonneg h0 h0) h0
  unfold fadef
  nlinarith [mul_nonneg hc (by nlinarith [sq_nonneg (s - 5/4)] : (0:ℚ) ≤ s * (s * 6 - 15) + 10)]

theorem fadef_le_one {s : ℚ} (h0 : 0 ≤ s) (h1 : s ≤ 1) : fadef s ≤ 1 := by
  have hcube : 0 ≤ (1 - s) ^ 3 := pow_nonneg (by linarith) 3
  have hq : 0 ≤ 6 * s ^ 2 + 3 * s + 1 := by positivity
  unfold fadef
  nlinarith [mul_nonneg hcube hq]

/-- The per-axis weight `(1-fade s)·s + fade s·(1-s)` never exceeds `1/2`:
it equals `1/2 - 2(s-1/2)²(6s⁴-12s³+4s²+2s+1)`, and the quartic factor is
nonnegative on `[0,1]`. -/
theorem psi_le_half {s : ℚ} (h0 : 0 ≤ s) (h1 : s ≤ 1) :
    (1 - fadef s) * s + fadef s * (1 - s) ≤ 1 / 2 := by
  have hq : 0 ≤ 6 * s ^ 4 - 12 * s ^ 3 + 4 * s ^ 2 + 2 * s + 1 := by
    nlinarith [sq_nonneg (s * (s - 1)), mul_nonneg h0 (by linarith : (0:ℚ) ≤ 1 - s)]
  unfold fadef
  nlinarith [mul_nonneg (sq_nonneg (s - 1/2)) hq]

theorem grad_le (hash : ℤ) (a b c : ℚ) : grad hash a b c ≤ |a| + |b| + |c| := by
  have ha1 := le_abs_self a
  have ha2 := neg_abs_le a
  have hb1 := le_abs_self b
  have hb2 := neg_abs_le b
  have hc1 := le_abs_self c
  have hc2 := neg_abs_le c
  have ha0 := abs_nonneg a
  have hb0 := abs_nonneg b
  have hc0 := abs_nonneg c
  simp only [grad]
  split_ifs <;> first
    | linarith
    | (exfalso; omega)

theorem grad_ge (hash : ℤ) (a b c : ℚ) : -(|a| + |b| + |c|) ≤ grad hash a b c := by
  have ha1 := le_abs_self a
  have ha2 := neg_abs_le a
  have hb1 := le_abs_self b
  have hb2 := neg_abs_le b
  have hc1 := le_abs_self c
  have hc2 := neg_abs_le c
  have ha0 := abs_nonneg a
  have hb0 := abs_nonneg b
  have hc0 := abs_nonneg c
  simp only [grad]
  split_ifs <;> first
    | linarith
    | (exfalso; omega)

/-- Trilinear interpolation with weights in `[0,1]` of corner values, each
bounded per corner by the sum of its absolute offsets, is bounded by the
sum of the three per-axis weights. -/
theorem lerp3_le (u v w x y z g000 g100 g010 g110 g001 g101 g011 g111 : ℚ)
    (hu0 : 0 ≤ u) (hu1 : u ≤ 1) (hv0 : 0 ≤ v) (hv1 : v ≤ 1)
    (hw0 : 0 ≤ w) (hw1 : w ≤ 1)
    (b000 : g000 ≤ x + y + z)
    (b100 : g100 ≤ (1 - x) + y + z)
    (b010 : g010 ≤ x + (1 - y) + z)
    (b110 : g110 ≤ (1 - x) + (1 - y) + z)
    (b001 : g001 ≤ x + y + (1 - z))
    (b101 : g101 ≤ (1 - x) + y + (1 - z))
    (b011 : g011 ≤ x + (1 - y) + (1 - z))
    (b111 : g111 ≤ (1 - x) + (1 - y) + (1 - z)) :
    lerpf (lerpf (lerpf g000 g100 u) (lerpf g010 g110 u) v)
          (lerpf (lerpf g001 g101 u) (lerpf g011 g111 u) v) w
      ≤ ((1 - u) * x + u * (1 - x)) + ((1 - v) * y + v * (1 - y))
        + ((1 - w) * z + w * (1 - z)) := by
  have k000 : 0 ≤ (1-u) * (1-v) * (1-w) * ((x + y + z) - g000) :=
    mul_nonneg (mul_nonneg (mul_nonneg (by linarith) (by linarith)) (by linarith))
      (by linarith)
  have k100 : 0 ≤ u * (1-v) * (1-w) * (((1-x) + y + z) - g100) :=
    mul_nonneg (mul_nonneg (mul_nonneg (by linarith) (by linarith)) (by linarith))
      (by linarith)
  have k010 : 0 ≤ (1-u) * v * (1-w) * ((x + (1-y) + z) - g010) :=
    mul_nonneg (mul_nonneg (mul_nonneg (by linarith) (by linarith)) (by linarith))
      (by linarith)
  have k110 : 0 ≤ u * v * (1-w) * (((1-x) + (1-y) + z) - g110) :=
    mul_nonneg (mul_nonneg (mul_nonneg (by linarith) (by linarith)) (by linarith))
      (by linarith)
  have k001 : 0 ≤ (1-u) * (1-v) * w * ((x + y + (1-z)) - g001) :=
    mul_nonneg (mul_nonneg (mul_nonneg (by linarith) (by linarith)) (by linarith))
      (by linarith)
  have k101 : 0 ≤ u * (1-v) * w * (((1-x) + y + (1-z)) - g101) :=
    mul_nonneg (mul_nonneg (mul_nonneg (by linarith) (by linarith)) (by linarith))
      (by linarith)
  have k011 : 0 ≤ (1-u) * v * w * ((x + (1-y) + (1-z)) - g011) :=
    mul_nonneg (mul_nonneg (mul_nonneg (by linarith) (by linarith)) (by linarith))
      (by linarith)
  have k111 : 0 ≤ u * v * w * (((1-x) + (1-y) + (1-z)) - g111) :=
    mul_nonneg (mul_nonneg (mul_nonneg (by linarith) (by linarith)) (by linarith))
      (by linarith)
  have expand :
      (((1 - u) * x + u * (1 - x)) + ((1 - v) * y + v * (1 - y))
        + ((1 - w) * z + w * (1 - z)))
      - lerpf (lerpf (lerpf g000 g100 u) (lerpf g010 g110 u) v)
              (lerpf (lerpf g001 g101 u) (lerpf g011 g111 u) v) w
      = (1-u) * (1-v) * (1-w) * ((x + y + z) - g000)
        + u * (1-v) * (1-w) * (((1-x) + y + z) - g100)
        + (1-u) * v * (1-w) * ((x + (1-y) + z) - g010)
        + u * v * (1-w) * (((1-x) + (1-y) + z) - g110)
        + (1-u) * (1-v) * w * ((x + y + (1-z)) - g001)
        + u * (1-v) * w * (((1-x) + y + (1-z)) - g101)
        + (1-u) * v * w * ((x + (1-y) + (1-z)) - g011)
        + u * v * w * (((1-x) + (1-y) + (1-z)) - g111) := by
    simp only [lerpf]; ring
  linarith

/-- The corner interpolation is bounded by `3/2` whenever the fractional
offsets lie in `[0,1]`, for any table: each corner gradient is at most the
sum of the absolute offsets, and each axis contributes at most `1/2`. -/
theorem perlinLattice_le (t : List ℤ) (X Y Z : ℤ) {xf yf zf : ℚ}
    (hx0 : 0 ≤ xf) (hx1 : xf ≤ 1) (hy0 : 0 ≤ yf) (hy1 : yf ≤ 1)
    (hz0 : 0 ≤ zf) (hz1 : zf ≤ 1) :
    perlinLattice t X Y Z xf yf zf ≤ 3 / 2 := by
  have hax : |xf| = xf := abs_of_nonneg hx0
  have hay : |yf| = yf := abs_of_nonneg hy0
  have haz : |zf| = zf := abs_of_nonneg hz0
  have hax1 : |xf - 1| = 1 - xf := by rw [abs_of_nonpos (by linarith)]; ring
  have hay1 : |yf - 1| = 1 - yf := by rw [abs_of_nonpos (by linarith)]; ring
  have haz1 : |zf - 1| = 1 - zf := by rw [abs_of_nonpos (by linarith)]; ring
  have hu0 := fadef_nonneg hx0
  have hu1 := fadef_le_one hx0 hx1
  have hv0 := fadef_nonneg hy0
  have hv1 := fadef_le_one hy0 hy1
  have hw0 := fadef_nonneg hz0
  have hw1 := fadef_le_one hz0 hz1
  have e : perlinLattice t X Y Z xf yf zf =
      lerpf
        (lerpf
          (lerpf (grad (tblGet t (tblGet t (tblGet t X + Y) + Z)) xf yf zf)
                 (grad (tblGet t (tblGet t (tblGet t (X + 1) + Y) + Z)) (xf - 1) yf zf)
                 (fadef xf))
          (lerpf (grad (tblGet t (tblGet t (tblGet t X + Y + 1) + Z)) xf (yf - 1) zf)
                 (grad (tblGet t (tblGet t (tblGet t (X + 1) + Y + 1) + Z)) (xf - 1) (yf - 1) zf)
                 (fadef xf))
          (fadef yf))
        (lerpf
          (lerpf (grad (tblGet t (tblGet t (tblGet t X + Y) + Z + 1)) xf yf (zf - 1))
                 (grad (tblGet t (tblGet t (tblGet t (X + 1) + Y) + Z + 1)) (xf - 1) yf (zf - 1))
                 (fadef xf))
          (lerpf (grad (tblGet t (tblGet t (tblGet t X + Y + 1) + Z + 1)) xf (yf - 1) (zf - 1))
                 (grad (tblGet t (tblGet t (tblGet t (X + 1) + Y + 1) + Z + 1)) (xf - 1) (yf - 1) (zf - 1))
                 (fadef xf))
          (fadef yf))
        (fadef zf) := rfl
  rw [e]
  have bnd : ∀ (h : ℤ) (a b c : ℚ), grad h a b c ≤ |a| + |b| + |c| := grad_le
  refine le_trans
    (lerp3_le (fadef xf) (fadef yf) (fadef zf) xf yf zf _ _ _ _ _ _ _ _
      hu0 hu1 hv0 hv1 hw0 hw1
      (by have := bnd (tblGet t (tblGet t (tblGet t X + Y) + Z)) xf yf zf; rwa [hax, hay, haz] at this)
      (by have := bnd (tblGet t (tblGet t (tblGet t (X + 1) + Y) + Z)) (xf - 1) yf zf; rwa [hax1, hay, haz] at this)
      (by have := bnd (tblGet t (tblGet t (tblGet t X + Y + 1) + Z)) xf (yf - 1) zf; rwa [hax, hay1, haz] at this)
      (by have := bnd (tblGet t (tblGet t (tblGet t (X + 1) + Y + 1) + Z)) (xf - 1) (yf - 1) zf; rwa [hax1, hay1, haz] at this)
      (by have := bnd (tblGet t (tblGet t (tblGet t X + Y) + Z + 1)) xf yf (zf - 1); rwa [hax, hay, haz1] at this)
      (by have := bnd (tblGet t (tblGet t (tblGet t (X + 1) + Y) + Z + 1)) (xf - 1) yf (zf - 1); rwa [hax1, hay, haz1] at this)
      (by have := bnd (tblGet t (tblGet t (tblGet t X + Y + 1) + Z + 1)) xf (yf - 1) (zf - 1); rwa [hax, hay1, haz1] at this)
      (by have := bnd (tblGet t (tblGet t (tblGet t (X + 1) + Y + 1) + Z + 1)) (xf - 1) (yf - 1) (zf - 1); rwa [hax1, hay1, haz1] at this))
    ?_
  have p1 := psi_le_half hx0 hx1
  have p2 := psi_le_half hy0 hy1
  have p3 := psi_le_half hz0 hz1
  linarith

/-- Lower counterpart of `lerp3_le`. -/
theorem lerp3_ge (u v w x y z g000 g100 g010 g110 g001 g101 g011 g111 : ℚ)
    (hu0 : 0 ≤ u) (hu1 : u ≤ 1) (hv0 : 0 ≤ v) (hv1 : v ≤ 1)
    (hw0 : 0 ≤ w) (hw1 : w ≤ 1)
    (b000 : -(x + y + z) ≤ g000)
    (b100 : -((1 - x) + y + z) ≤ g100)
    (b010 : -(x + (1 - y) + z) ≤ g010)
    (b110 : -((1 - x) + (1 - y) + z) ≤ g110)
    (b001 : -(x + y + (1 - z)) ≤ g001)
    (b101 : -((1 - x) + y + (1 - z)) ≤ g101)
    (b011 : -(x + (1 - y) + (1 - z)) ≤ g011)
    (b111 : -((1 - x) + (1 - y) + (1 - z)) ≤ g111) :
    -(((1 - u) * x + u * (1 - x)) + ((1 - v) * y + v * (1 - y))
        + ((1 - w) * z + w * (1 - z)))
      ≤ lerpf (lerpf (lerpf g000 g100 u) (lerpf g010 g110 u) v)
              (lerpf (lerpf g001 g101 u) (lerpf g011 g111 u) v) w := by
  have k000 : 0 ≤ (1-u) * (1-v) * (1-w) * (g000 + (x + y + z)) :=
    mul_nonneg (mul_nonneg (mul_nonneg (by linarith) (by linarith)) (by linarith))
      (by linarith)
  have k100 : 0 ≤ u * (1-v) * (1-w) * (g100 + ((1-x) + y + z)) :=
    mul_nonneg (mul_nonneg (mul_nonneg (by linarith) (by linarith)) (by linarith))
      (by linarith)
  have k010 : 0 ≤ (1-u) * v * (1-w) * (g010 + (x + (1-y) + z)) :=
    mul_nonneg (mul_nonneg (mul_nonneg (by linarith) (by linarith)) (by linarith))
      (by linarith)
  have k110 : 0 ≤ u * v * (1-w) * (g110 + ((1-x) + (1-y) + z)) :=
    mul_nonneg (mul_nonneg (mul_nonneg (by linarith) (by linarith)) (by linarith))
      (by linarith)
  have k001 : 0 ≤ (1-u) * (1-v) * w * (g001 + (x + y + (1-z))) :=
    mul_nonneg (mul_nonneg (mul_nonneg (by linarith) (by linarith)) (by linarith))
      (by linarith)
  have k101 : 0 ≤ u * (1-v) * w * (g101 + ((1-x) + y + (1-z))) :=
    mul_nonneg (mul_nonneg (mul_nonneg (by linarith) (by linarith)) (by linarith))
      (by linarith)
  have k011 : 0 ≤ (1-u) * v * w * (g011 + (x + (1-y) + (1-z))) :=
    mul_nonneg (mul_nonneg (mul_nonneg (by linarith) (by linarith)) (by linarith))
      (by linarith)
  have k111 : 0 ≤ u * v * w * (g111 + ((1-x) + (1-y) + (1-z))) :=
    mul_nonneg (mul_nonneg (mul_nonneg (by linarith) (by linarith)) (by linarith))
      (by linarith)
  have expand :
      lerpf (lerpf (lerpf g000 g100 u) (lerpf g010 g110 u) v)
            (lerpf (lerpf g001 g101 u) (lerpf g011 g111 u) v) w
      - (-(((1 - u) * x + u * (1 - x)) + ((1 - v) * y + v * (1 - y))
          + ((1 - w) * z + w * (1 - z))))
      = (1-u) * (1-v) * (1-w) * (g000 + (x + y + z))
        + u * (1-v) * (1-w) * (g100 + ((1-x) + y + z))
        + (1-u) * v * (1-w) * (g010 + (x + (1-y) + z))
        + u * v * (1-w) * (g110 + ((1-x) + (1-y) + z))
        + (1-u) * (1-v) * w * (g001 + (x + y + (1-z)))
        + u * (1-v) * w * (g101 + ((1-x) + y + (1-z)))
        + (1-u) * v * w * (g011 + (x + (1-y) + (1-z)))
        + u * v * w * (g111 + ((1-x) + (1-y) + (1-z))) := by
    simp only [lerpf]; ring
  linarith

/-- Lower counterpart of `perlinLattice_le`. -/
theorem perlinLattice_ge (t : List ℤ) (X Y Z : ℤ) {xf yf zf : ℚ}
    (hx0 : 0 ≤ xf) (hx1 : xf ≤ 1) (hy0 : 0 ≤ yf) (hy1 : yf ≤ 1)
    (hz0 : 0 ≤ zf) (hz1 : zf ≤ 1) :
    -(3 / 2) ≤ perlinLattice t X Y Z xf yf zf := by
  have hax : |xf| = xf := abs_of_nonneg hx0
  have hay : |yf| = yf := abs_of_nonneg hy0
  have haz : |zf| = zf := abs_of_nonneg hz0
  have hax1 : |xf - 1| = 1 - xf := by rw [abs_of_nonpos (by linarith)]; ring
  have hay1 : |yf - 1| = 1 - yf := by rw [abs_of_nonpos (by linarith)]; ring
  have haz1 : |zf - 1| = 1 - zf := by rw [abs_of_nonpos (by linarith)]; ring
  have hu0 := fadef_nonneg hx0
  have hu1 := fadef_le_one hx0 hx1
  have hv0 := fadef_nonneg hy0
  have hv1 := fadef_le_one hy0 hy1
  have hw0 := fadef_nonneg hz0
  have hw1 := fadef_le_one hz0 hz1
  have e : perlinLattice t X Y Z xf yf zf =
      lerpf
        (lerpf
          (lerpf (grad (tblGet t (tblGet t (tblGet t X + Y) + Z)) xf yf zf)
                 (grad (tblGet t (tblGet t (tblGet t (X + 1) + Y) + Z)) (xf - 1) yf zf)
                 (fadef xf))
          (lerpf (grad (tblGet t (tblGet t (tblGet t X + Y + 1) + Z)) xf (yf - 1) zf)
                 (grad (tblGet t (tblGet t (tblGet t (X + 1) + Y + 1) + Z)) (xf - 1) (yf - 1) zf)
                 (fadef xf))
          (fadef yf))
        (lerpf
          (lerpf (grad (tblGet t (tblGet t (tblGet t X + Y) + Z + 1)) xf yf (zf - 1))
                 (grad (tblGet t (tblGet t (tblGet t (X + 1) + Y) + Z + 1)) (xf - 1) yf (zf - 1))
                 (fadef xf))
          (lerpf (grad (tblGet t (tblGet t (tblGet t X + Y + 1) + Z + 1)) xf (yf - 1) (zf - 1))
                 (grad (tblGet t (tblGet t (tblGet t (X + 1) + Y + 1) + Z + 1)) (xf - 1) (yf - 1) (zf - 1))
                 (fadef xf))
          (fadef yf))
        (fadef zf) := rfl
  rw [e]
  have bnd : ∀ (h : ℤ) (a b c : ℚ), -(|a| + |b| + |c|) ≤ grad h a b c := grad_ge
  refine le_trans ?_
    (lerp3_ge (fadef xf) (fadef yf) (fadef zf) xf yf zf _ _ _ _ _ _ _ _
      hu0 hu1 hv0 hv1 hw0 hw1
      (by have := bnd (tblGet t (tblGet t (tblGet t X + Y) + Z)) xf yf zf; rwa [hax, hay, haz] at this)
      (by have := bnd (tblGet t (tblGet t (tblGet t (X + 1) + Y) + Z)) (xf - 1) yf zf; rwa [hax1, hay, haz] at this)
      (by have := bnd (tblGet t (tblGet t (tblGet t X + Y + 1) + Z)) xf (yf - 1) zf; rwa [hax, hay1, haz] at this)
      (by have := bnd (tblGet t (tblGet t (tblGet t (X + 1) + Y + 1) + Z)) (xf - 1) (yf - 1) zf; rwa [hax1, hay1, haz] at this)
      (by have := bnd (tblGet t (tblGet t (tblGet t X + Y) + Z + 1)) xf yf (zf - 1); rwa [hax, hay, haz1] at this)
      (by have := bnd (tblGet t (tblGet t (tblGet t (X + 1) + Y) + Z + 1)) (xf - 1) yf (zf - 1); rwa [hax1, hay, haz1] at this)
      (by have := bnd (tblGet t (tblGet t (tblGet t X + Y + 1) + Z + 1)) xf (yf - 1) (zf - 1); rwa [hax, hay1, haz1] at this)
      (by have := bnd (tblGet t (tblGet t (tblGet t (X + 1) + Y + 1) + Z + 1)) (xf - 1) (yf - 1) (zf - 1); rwa [hax1, hay1, haz1] at this))
  have p1 := psi_le_half hx0 hx1
  have p2 := psi_le_half hy0 hy1
  have p3 := psi_le_half hz0 hz1
  linarith

/-- `perlin` is bounded by `3/2` in absolute value, for every table and
every input (the fractional offsets always lie in `[0,1)`). -/
theorem perlin_le (t : List ℤ) (x y z : ℚ) : perlin t x y z ≤ 3 / 2 := by
  have hx0 : (0:ℚ) ≤ x - (⌊x⌋ : ℤ) := by have := Int.floor_le x; linarith
  have hx1 : x - (⌊x⌋ : ℤ) ≤ 1 := by have := Int.lt_floor_add_one x; push_cast at this ⊢; linarith
  have hy0 : (0:ℚ) ≤ y - (⌊y⌋ : ℤ) := by have := Int.floor_le y; linarith
  have hy1 : y - (⌊y⌋ : ℤ) ≤ 1 := by have := Int.lt_floor_add_one y; push_cast at this ⊢; linarith
  have hz0 : (0:ℚ) ≤ z - (⌊z⌋ : ℤ) := by have := Int.floor_le z; linarith
  have hz1 : z - (⌊z⌋ : ℤ) ≤ 1 := by have := Int.lt_floor_add_one z; push_cast at this ⊢; linarith
  exact perlinLattice_le t _ _ _ hx0 hx1 hy0 hy1 hz0 hz1

/-- Lower counterpart of `perlin_le`. -/
theorem perlin_ge (t : List ℤ) (x y z : ℚ) : -(3 / 2) ≤ perlin t x y z := by
  have hx0 : (0:ℚ) ≤ x - (⌊x⌋ : ℤ) := by have := Int.floor_le x; linarith
  have hx1 : x - (⌊x⌋ : ℤ) ≤ 1 := by have := Int.lt_floor_add_one x; push_cast at this ⊢; linarith
  have hy0 : (0:ℚ) ≤ y - (⌊y⌋ : ℤ) := by have := Int.floor_le y; linarith
  have hy1 : y - (⌊y⌋ : ℤ) ≤ 1 := by have := Int.lt_floor_add_one y; push_cast at this ⊢; linarith
  have hz0 : (0:ℚ) ≤ z - (⌊z⌋ : ℤ) := by have := Int.floor_le z; linarith
  have hz1 : z - (⌊z⌋ : ℤ) ≤ 1 := by have := Int.lt_floor_add_one z; push_cast at this ⊢; linarith
  exact perlinLattice_ge t _ _ _ hx0 hx1 hy0 hy1 hz0 hz1

/-- Loop invariant of `fbm`: with nonnegative gain the amplitude stays
nonnegative, so the running sum stays between `-(1/4)` and `5/4` of the
accumulated amplitude (each remapped octave sample `perlin/2 + 1/2` lies in
`[-1/4, 5/4]` by the `3/2` bound on `perlin`). -/
theorem fbmAux_bound (t : List ℤ) (x y z lac gain : ℚ) (hg : 0 ≤ gain) :
    ∀ (n : ℕ) (amp freq sum maxAmp : ℚ), 0 ≤ amp → 0 ≤ maxAmp →
      -(1/4) * maxAmp ≤ sum → sum ≤ (5/4) * maxAmp →
      0 ≤ (fbmAux t x y z lac gain n amp freq sum maxAmp).2 ∧
      -(1/4) * (fbmAux t x y z lac gain n amp freq sum maxAmp).2
        ≤ (fbmAux t x y z lac gain n amp freq sum maxAmp).1 ∧
      (fbmAux t x y z lac gain n amp freq sum maxAmp).1
        ≤ (5/4) * (fbmAux t x y z lac gain n amp freq sum maxAmp).2 := by
  intro n
  induction n with
  | zero =>
    intro amp freq sum maxAmp ha hm hlo hhi
    exact ⟨hm, hlo, hhi⟩
  | succ k ih =>
    intro amp freq sum maxAmp ha hm hlo hhi
    have hle := perlin_le t (x * freq) (y * freq) (z * freq)
    have hge := perlin_ge t (x * freq) (y * freq) (z * freq)
    refine ih (amp * gain) (freq * lac)
      (sum + (perlin t (x * freq) (y * freq) (z * freq) * (1/2) + 1/2) * amp)
      (maxAmp + amp) (mul_nonneg ha hg) (by linarith) ?_ ?_
    · nlinarith
    · nlinarith

/-- `fbm` lies in `[-1/4, 5/4]` for every table, input and octave count,
whenever the gain is nonnegative. -/
theorem fbm_bound (t : List ℤ) (x y z : ℚ) (octaves : ℤ) (lac gain : ℚ)
    (hg : 0 ≤ gain) :
    -(1/4) ≤ fbm t x y z octaves lac gain ∧ fbm t x y z octaves lac gain ≤ 5/4 := by
  have h := fbmAux_bound t x y z lac gain hg octaves.toNat 1 1 0 0
    (by norm_num) (by norm_num) (by norm_num) (by norm_num)
  unfold fbm
  rcases h with ⟨hm, hlo, hhi⟩
  by_cases hz : (fbmAux t x y z lac gain octaves.toNat 1 1 0 0).2 = 0
  · simp only [hz, if_pos]
    norm_num
  · have hpos : 0 < (fbmAux t x y z lac gain octaves.toNat 1 1 0 0).2 :=
      lt_of_le_of_ne hm (Ne.symm hz)
    rw [if_neg hz]
    constructor
    · rw [le_div_iff hpos]; linarith
    · rw [div_le_iff hpos]; linarith

/-- `clampf v 0 1` lies in `[0, 1]`. -/
theorem clampf01_mem (v : ℚ) : 0 ≤ clampf v 0 1 ∧ clampf v 0 1 ≤ 1 := by
  unfold clampf
  split_ifs <;> constructor <;> linarith

/-- Loop invariant of `ridged_fbm`: each octave adds
`(1-|perlin|)² · weight · amplitude ≥ 0`, and the carried weight and the
amplitude stay nonnegative, so the sum never decreases below `0`. -/
theorem ridgedAux_nonneg (t : List ℤ) (x y z lac gain : ℚ) :
    ∀ (n : ℕ) (sum freq amp weight : ℚ), 0 ≤ sum → 0 ≤ amp → 0 ≤ weight →
      0 ≤ ridgedAux t x y z lac gain n sum freq amp weight := by
  intro n
  induction n with
  | zero => intro sum freq amp weight hs _ _; exact hs
  | succ k ih =>
    intro sum freq amp weight hs ha hw
    have h2 : (0:ℚ) ≤ (1 - |perlin t (x * freq) (y * freq) (z * freq)|)
        * (1 - |perlin t (x * freq) (y * freq) (z * freq)|) :=
      mul_self_nonneg _
    refine ih _ _ _ _ ?_ (by linarith) (clampf01_mem _).1
    have := mul_nonneg (mul_nonneg h2 hw) ha
    linarith

/-- `ridged_fbm` is nonnegative for every table, input and parameters. -/
theorem ridged_fbm_nonneg (t : List ℤ) (x y z : ℚ) (octaves : ℤ)
    (lac gain : ℚ) : 0 ≤ ridged_fbm t x y z octaves lac gain :=
  ridgedAux_nonneg t x y z lac gain octaves.toNat 0 1 1 1
    (by norm_num) (by norm_num) (by norm_num)

/-- `fbm` returns `0` whenever the accumulated amplitude comes out `0` —
in particular for a nonpositive octave count, where the loop never runs
and `maxAmp` stays `0`. -/
theorem fbm_zero_of_maxAmp_zero (t : List ℤ) (x y z : ℚ) (octaves : ℤ)
    (lac gain : ℚ)
    (h : octaves ≤ 0 ∨ (fbmAux t x y z lac gain octaves.toNat 1 1 0 0).2 = 0) :
    fbm t x y z octaves lac gain = 0 := by
  rcases h with h | h
  · have hto : octaves.toNat = 0 := Int.toNat_of_nonpos h
    unfold fbm
    rw [hto]
    rfl
  · unfold fbm
    rw [if_pos h]

/-! ### The permutation table invariant -/

/-- Writing one cell moves one occurrence count: setting index `i` (in
range) to `a` removes the old entry and adds `a`. -/
theorem count_set_eq (a x : ℤ) :
    ∀ (l : List ℤ) (i : ℕ), i < l.length →
      (l.set i a).count x + (if l.getD i 0 = x then 1 else 0)
        = l.count x + (if a = x then 1 else 0) := by
  intro l
  induction l with
  | nil => intro i hi; simp at hi
  | cons hd tl ih =>
    intro i hi
    cases i with
    | zero =>
      simp only [List.set_cons_zero, List.getD_cons_zero, List.count_cons,
        beq_iff_eq]
      split_ifs <;> omega
    | succ k =>
      have hk : k < tl.length := by simpa using hi
      have hrec := ih k hk
      simp only [List.set_cons_succ, List.getD_cons_succ, List.count_cons,
        beq_iff_eq]
      split_ifs at hrec ⊢ <;> omega

/-- Setting an in-range cell back to its own value changes nothing. -/
theorem set_getD_self : ∀ (l : List ℤ) (i : ℕ), i < l.length →
    l.set i (l.getD i 0) = l := by
  intro l
  induction l with
  | nil => intro i hi; simp at hi
  | cons hd tl ih =>
    intro i hi
    cases i with
    | zero => simp
    | succ k =>
      have hk : k < tl.length := by simpa using hi
      simpa using ih k hk

/-- An in-range swap is a permutation of the list. -/
theorem swapL_perm (l : List ℤ) (i j : ℕ) (hi : i < l.length)
    (hj : j < l.length) : List.Perm (swapL l i j) l := by
  rcases eq_or_ne i j with rfl | hne
  · unfold swapL
    rw [List.set_set, set_getD_self l i hi]
  · rw [List.perm_iff_count]
    intro x
    have hlen : j < (l.set i (l.getD j 0)).length := by simpa using hj
    have h1 := count_set_eq (l.getD j 0) x l i hi
    have h2 := count_set_eq (l.getD i 0) x (l.set i (l.getD j 0)) j hlen
    have hgd : (l.set i (l.getD j 0)).getD j 0 = l.getD j 0 := by
      simp only [List.getD_eq_getElem?_getD]
      rw [List.getElem?_set_ne (by omega)]
    rw [hgd] at h2
    show ((l.set i (l.getD j 0)).set j (l.getD i 0)).count x = l.count x
    split_ifs at h1 h2 <;> omega

theorem swapL_length (l : List ℤ) (i j : ℕ) :
    (swapL l i j).length = l.length := by
  unfold swapL
  simp

/-- Each downward Fisher–Yates pass permutes the list: every step swaps
index `i ≤ start` with some `j ≤ i` (the LCG value is reduced `% 2^32`, so
`j = val·(i+1)/2^32 ≤ i`). -/
theorem fyAux_perm : ∀ (m : ℕ) (l : List ℤ) (val : ℕ), m < l.length →
    List.Perm (fyAux l val m) l := by
  intro m
  induction m with
  | zero => intro l val _; exact List.Perm.refl l
  | succ k ih =>
    intro l val hm
    have hval : (val * 1664525 + 1013904223) % 4294967296 < 4294967296 :=
      Nat.mod_lt _ (by norm_num)
    have hj : ((val * 1664525 + 1013904223) % 4294967296 * (k + 1 + 1)) / 4294967296
        ≤ k + 1 := by
      have : (val * 1664525 + 1013904223) % 4294967296 * (k + 1 + 1)
          < 4294967296 * (k + 2) := by
        calc (val * 1664525 + 1013904223) % 4294967296 * (k + 1 + 1)
            ≤ 4294967295 * (k + 1 + 1) := Nat.mul_le_mul_right _ (by omega)
          _ < 4294967296 * (k + 2) := by ring_nf; omega
      have := Nat.div_lt_of_lt_mul (by linarith [this] :
        (val * 1664525 + 1013904223) % 4294967296 * (k + 1 + 1)
          < (k + 2) * 4294967296)
      omega
    have key : fyAux l val (k + 1)
        = fyAux (swapL l (k + 1)
            (((val * 1664525 + 1013904223) % 4294967296 * (k + 1 + 1)) / 4294967296))
            ((val * 1664525 + 1013904223) % 4294967296) k := rfl
    rw [key]
    have hswap := swapL_perm l (k+1)
      (((val * 1664525 + 1013904223) % 4294967296 * (k + 1 + 1)) / 4294967296)
      hm (by omega)
    have hlen : k < (swapL l (k+1)
        (((val * 1664525 + 1013904223) % 4294967296 * (k + 1 + 1)) / 4294967296)).length := by
      rw [swapL_length]; omega
    exact (ih _ _ hlen).trans hswap

/-- The shuffled half is a permutation of `0..255`. -/
theorem shuffledHalf_perm (seed : ℕ) :
    List.Perm (shuffledHalf seed) ((List.range 256).map Int.ofNat) := by
  unfold shuffledHalf
  exact fyAux_perm 255 _ _ (by simp)

theorem shuffledHalf_length (seed : ℕ) : (shuffledHalf seed).length = 256 := by
  have := (shuffledHalf_perm seed).length_eq
  simpa using this

/-- Every entry of the shuffled half lies in `[0, 255]`. -/
theorem shuffledHalf_mem_bound (seed : ℕ) :
    ∀ e ∈ shuffledHalf seed, 0 ≤ e ∧ e ≤ 255 := by
  intro e he
  have : e ∈ (List.range 256).map Int.ofNat :=
    (shuffledHalf_perm seed).mem_iff.mp he
  rcases List.mem_map.mp this with ⟨k, hk, rfl⟩
  have hk2 := List.mem_range.mp hk
  rw [Int.ofNat_eq_natCast]
  exact ⟨by omega, by omega⟩

theorem buildPermTable_length (seed : ℕ) : (buildPermTable seed).length = 512 := by
  unfold buildPermTable
  rw [List.length_append, shuffledHalf_length]

theorem buildPermTable_mem_bound (seed : ℕ) :
    ∀ e ∈ buildPermTable seed, 0 ≤ e ∧ e ≤ 255 := by
  intro e he
  rcases List.mem_append.mp he with h | h
  · exact shuffledHalf_mem_bound seed e h
  · exact shuffledHalf_mem_bound seed e h

theorem buildPermTable_take (seed : ℕ) :
    (buildPermTable seed).take 256 = shuffledHalf seed := by
  unfold buildPermTable
  exact List.take_left' (shuffledHalf_length seed)

/-- The second 256 entries duplicate the first 256. -/
theorem buildPermTable_dup (seed : ℕ) :
    buildPermTable seed
      = (buildPermTable seed).take 256 ++ (buildPermTable seed).take 256 := by
  rw [buildPermTable_take]
  rfl

/-- Any table entry read through `tblGet` inherits the `[0,255]` entry
bound (out-of-range reads return the in-range default `0`). -/
theorem tblGet_bound (t : List ℤ) (hB : ∀ e ∈ t, 0 ≤ e ∧ e ≤ 255) (i : ℤ) :
    0 ≤ tblGet t i ∧ tblGet t i ≤ 255 := by
  unfold tblGet
  by_cases h : i.toNat < t.length
  · have hmem : t.getD i.toNat 0 ∈ t := by
      rw [List.getD_eq_getElem?_getD]
      have : t[i.toNat]? = some t[i.toNat] := List.getElem?_eq_getElem h
      rw [this]
      exact List.getElem_mem h
    exact hB _ hmem
  · rw [List.getD_eq_getElem?_getD, List.getElem?_eq_none (by omega)]
    norm_num

/-! ### Helper facts for the claims -/

theorem hash01_mem (seed salt : ℕ) : 0 ≤ hash01 seed salt ∧ hash01 seed salt < 1 := by
  unfold hash01
  constructor
  · positivity
  · rw [div_lt_one (by norm_num)]
    have h := Nat.and_le_right
      (n := hash32 ((seed + salt) % 4294967296)) (m := 0xFFFFFF)
    calc ((hash32 ((seed + salt) % 4294967296) &&& 0xFFFFFF : ℕ) : ℚ)
        ≤ (0xFFFFFF : ℕ) := by exact_mod_cast h
      _ < 16777216 := by norm_num

theorem randomRange_mem (seed salt : ℕ) (a b : ℚ) (hab : a < b) :
    a ≤ randomRange seed salt a b ∧ randomRange seed salt a b < b := by
  obtain ⟨h0, h1⟩ := hash01_mem seed salt
  unfold randomRange
  constructor
  · nlinarith
  · nlinarith

theorem ctrunc_mem (a b : ℤ) (q : ℚ) (h0 : (a : ℚ) ≤ q) (h1 : q < (b : ℚ))
    (h2 : 0 ≤ q) : a ≤ ctrunc q ∧ ctrunc q < b := by
  unfold ctrunc
  rw [if_pos h2]
  exact ⟨Int.le_floor.mpr h0, Int.floor_lt.mpr h1⟩

/-- Normalizing an already-normalized vector changes nothing, provided the
square root is exact on the squared length actually taken (`sqrtf` is
exactly rounded, hence exact whenever the true root is representable) and
on `0` and `1`. -/
theorem normalize_idem (sq : ℚ → ℚ) (v : Vec3)
    (hsq : sq (len2 v) ^ 2 = len2 v) (h0 : sq 0 = 0) (h1 : sq 1 = 1) :
    normalize sq (normalize sq v) = normalize sq v := by
  unfold normalize
  by_cases hle : sq (len2 v) ≤ 1 / 1000000000
  · rw [if_pos hle]
    have hz : len2 (⟨0, 0, 0⟩ : Vec3) = 0 := by unfold len2; norm_num
    rw [hz, h0, if_pos (by norm_num)]
  · rw [if_neg hle]
    have hne : sq (len2 v) ≠ 0 := by
      intro h
      rw [h] at hle
      exact hle (by norm_num)
    have hL : len2 v = v.x * v.x + v.y * v.y + v.z * v.z := rfl
    have hne2 : sq (v.x * v.x + v.y * v.y + v.z * v.z) ≠ 0 := by
      rw [← hL]
      exact hne
    have hsq2 : sq (v.x * v.x + v.y * v.y + v.z * v.z)
        * sq (v.x * v.x + v.y * v.y + v.z * v.z)
        = v.x * v.x + v.y * v.y + v.z * v.z := by
      have h := hsq
      rw [hL, pow_two] at h
      exact h
    have hone : len2 ⟨v.x / sq (len2 v), v.y / sq (len2 v), v.z / sq (len2 v)⟩ = 1 := by
      show v.x / sq (len2 v) * (v.x / sq (len2 v))
          + v.y / sq (len2 v) * (v.y / sq (len2 v))
          + v.z / sq (len2 v) * (v.z / sq (len2 v)) = 1
      rw [hL]
      rw [div_mul_div_comm, div_mul_div_comm, div_mul_div_comm, div_add_div_same,
        div_add_div_same, hsq2]
      refine div_self ?_
      rw [← hsq2]
      exact mul_ne_zero hne2 hne2
    rw [hone, h1, if_neg (by norm_num)]
    norm_num

/-- After any state with an initialized table, a height query leaves the
state untouched. -/
theorem run_state_stable (sq : ℚ → ℚ) (st : PlanetState) (x y z : ℚ)
    (h : st.permInited = true) : (get_heightRun sq st x y z).2 = st := by
  unfold get_heightRun
  split_ifs <;> simp [effState, h]

theorem rangeHalf_length : rangeHalf.length = 256 := by
  unfold rangeHalf
  simp

theorem rangeTable_take : rangeTable.take 256 = rangeHalf :=
  List.take_left' rangeHalf_length

theorem rangeTable_ok : PermTableOK rangeTable := by
  constructor
  · rw [rangeTable_take]
    exact List.Perm.refl _
  · rw [rangeTable_take]
    rfl

theorem rangeTable_mem_bound : ∀ e ∈ rangeTable, 0 ≤ e ∧ e ≤ 255 := by
  intro e he
  have : e ∈ rangeHalf := by
    rcases List.mem_append.mp he with h | h <;> exact h
  rcases List.mem_map.mp this with ⟨k, hk, rfl⟩
  have hk2 := List.mem_range.mp hk
  rw [Int.ofNat_eq_natCast]
  exact ⟨by omega, by omega⟩

theorem cexPerm_length : cexPerm.length = 256 := by decide

theorem cexTable_take : cexTable.take 256 = cexPerm :=
  List.take_left' cexPerm_length

theorem cexTable_ok : PermTableOK cexTable := by
  constructor
  · rw [cexTable_take]
    decide
  · rw [cexTable_take]
    rfl

/-! ### The claims -/

/-- C1.  For every direction (after normalization), `get_height` returns
exactly `macro*0.65 + micro*0.30 + ridge*continentMask*0.6 + polarBoost
- 0.45`, multiplied by the session scale, with the macro/micro/ridge terms,
`continentMask = smoothstep(0.35, 0.65, macro)` and `polarBoost =
smoothstep(0.6, 0.95, |dir.y|) * 0.08` as in §4.6 steps 2-6 — i.e. the
implementation agrees with the spec's height formula (`specHeight`) for
every square-root function, state and input. -/
theorem height_matches_spec_formula (sq : ℚ → ℚ) (st : PlanetState)
    (x y z : ℚ) : get_height sq st x y z = specHeight sq st x y z := by
  simp only [get_height, specHeight]

/-- C2.  For every non-zero input vector, `get_final_position` returns
`normalize(d)` scaled by `(radius + height(d))`: the displaced point is the
unit direction times the base radius plus the already-scaled height at that
direction.  The square root must be exact on the squared length taken (and
on `0` and `1`), which holds for the idealized real `sqrtf`. -/
theorem final_position_composition (sq : ℚ → ℚ) (st : PlanetState) (v : Vec3)
    (hv : v ≠ ⟨0, 0, 0⟩) (hsq : sq (len2 v) ^ 2 = len2 v)
    (h0 : sq 0 = 0) (h1 : sq 1 = 1) :
    get_final_position sq st v
      = scaleV (normalize sq v) (st.radius + get_height sq st v.x v.y v.z) := by
  have hid := normalize_idem sq v hsq h0 h1
  have hh : get_height sq st (normalize sq v).x (normalize sq v).y
      (normalize sq v).z = get_height sq st v.x v.y v.z := by
    unfold get_height
    have e1 : (⟨(normalize sq v).x, (normalize sq v).y, (normalize sq v).z⟩ : Vec3)
        = normalize sq v := rfl
    have e2 : (⟨v.x, v.y, v.z⟩ : Vec3) = v := rfl
    rw [e1, e2, hid]
  simp only [get_final_position, scaleV]
  rw [hh]

/-- C2 witness at `v = (0, 3, 4)` (length `5`, so the rational square root
is exact) with the concrete square-root function `sqrtW`. -/
theorem final_position_composition_witness :
    (⟨0, 3, 4⟩ : Vec3) ≠ (⟨0, 0, 0⟩ : Vec3) ∧
    sqrtW (len2 ⟨0, 3, 4⟩) ^ 2 = len2 ⟨0, 3, 4⟩ ∧ sqrtW 0 = 0 ∧ sqrtW 1 = 1 ∧
    get_final_position sqrtW initialState ⟨0, 3, 4⟩
      = scaleV (normalize sqrtW ⟨0, 3, 4⟩)
          (initialState.radius + get_height sqrtW initialState 0 3 4) := by
  have hv : (⟨0, 3, 4⟩ : Vec3) ≠ (⟨0, 0, 0⟩ : Vec3) := by
    intro h
    exact absurd (congrArg Vec3.y h) (by norm_num)
  have hlen : len2 (⟨0, 3, 4⟩ : Vec3) = 25 := by unfold len2; norm_num
  have hsq : sqrtW (len2 ⟨0, 3, 4⟩) ^ 2 = len2 ⟨0, 3, 4⟩ := by
    rw [hlen]
    norm_num [sqrtW]
  have h0 : sqrtW 0 = 0 := by norm_num [sqrtW]
  have h1 : sqrtW 1 = 1 := by norm_num [sqrtW]
  exact ⟨hv, hsq, h0, h1,
    final_position_composition sqrtW initialState ⟨0, 3, 4⟩ hv hsq h0 h1⟩

/-- C3.  Batch displacement over the flat coordinate buffer is elementwise
identical to applying `get_final_position` to each point in order
(spec-modelled batch entry point; see `apply_displacement_batch`). -/
theorem batch_displace_equiv (sq : ℚ → ℚ) (st : PlanetState)
    (pts : List Vec3) :
    apply_displacement_batch sq st pts.length (flattenPoints pts)
      = flattenPoints (pts.map (get_final_position sq st)) := by
  induction pts with
  | nil => rfl
  | cons p ps ih =>
    show apply_displacement_batch sq st (ps.length + 1)
        (p.x :: p.y :: p.z :: flattenPoints ps)
      = (get_final_position sq st p).x :: (get_final_position sq st p).y
        :: (get_final_position sq st p).z
        :: flattenPoints (ps.map (get_final_position sq st))
    have step : apply_displacement_batch sq st (ps.length + 1)
        (p.x :: p.y :: p.z :: flattenPoints ps)
      = (get_final_position sq st p).x :: (get_final_position sq st p).y
        :: (get_final_position sq st p).z
        :: apply_displacement_batch sq st ps.length (flattenPoints ps) := rfl
    rw [step, ih]

/-- C4.  `init_planet` is a pure function of `(seed, scale, radius)`: two
runs from arbitrary prior states produce identical states (hence
byte-identical permutation tables and identical `NoiseParams`), the same
direction then yields the same height, and re-running `init_planet` with
the same arguments resets the state so that the height before and after
re-initialization agrees. -/
theorem init_deterministic_reset (sq : ℚ → ℚ) (s : ℤ) (sc r : ℚ)
    (prev1 prev2 : PlanetState) (x y z : ℚ) :
    init_planet s sc r prev1 = init_planet s sc r prev2 ∧
    (init_planet s sc r prev1).permTable = (init_planet s sc r prev2).permTable ∧
    (init_planet s sc r prev1).params = (init_planet s sc r prev2).params ∧
    get_height sq (init_planet s sc r prev1) x y z
      = get_height sq (init_planet s sc r prev2) x y z ∧
    get_height sq (init_planet s sc r (init_planet s sc r prev1)) x y z
      = get_height sq (init_planet s sc r prev1) x y z := by
  have h12 : init_planet s sc r prev1 = init_planet s sc r prev2 := by
    unfold init_planet
    rfl
  have h3 : init_planet s sc r (init_planet s sc r prev1)
      = init_planet s sc r prev1 := by
    unfold init_planet
    rfl
  exact ⟨h12, by rw [h12], by rw [h12], by rw [h12], by rw [h3]⟩

/-- C6.  For every seed, every field of the derived `NoiseParams` lies in
its documented half-open interval. -/
theorem noise_params_in_range (seed : ℕ) :
    (3/100 ≤ (generateNoiseParams seed).macroFreq
      ∧ (generateNoiseParams seed).macroFreq < 18/100) ∧
    (2 ≤ (generateNoiseParams seed).macroOctaves
      ∧ (generateNoiseParams seed).macroOctaves < 5) ∧
    (6/10 ≤ (generateNoiseParams seed).macroAmp
      ∧ (generateNoiseParams seed).macroAmp < 16/10) ∧
    (8/10 ≤ (generateNoiseParams seed).microFreq
      ∧ (generateNoiseParams seed).microFreq < 3) ∧
    (2 ≤ (generateNoiseParams seed).microOctaves
      ∧ (generateNoiseParams seed).microOctaves < 6) ∧
    (5/100 ≤ (generateNoiseParams seed).microAmp
      ∧ (generateNoiseParams seed).microAmp < 5/10) ∧
    (6/10 ≤ (generateNoiseParams seed).ridgeFreq
      ∧ (generateNoiseParams seed).ridgeFreq < 25/10) ∧
    (1 ≤ (generateNoiseParams seed).ridgeOctaves
      ∧ (generateNoiseParams seed).ridgeOctaves < 4) ∧
    (2/10 ≤ (generateNoiseParams seed).ridgeAmp
      ∧ (generateNoiseParams seed).ridgeAmp < 12/10) ∧
    (18/10 ≤ (generateNoiseParams seed).lacunarity
      ∧ (generateNoiseParams seed).lacunarity < 22/10) ∧
    (35/100 ≤ (generateNoiseParams seed).gain
      ∧ (generateNoiseParams seed).gain < 6/10) := by
  have h11 := randomRange_mem seed 11 (3/100) (18/100) (by norm_num)
  have h12 := randomRange_mem seed 12 2 5 (by norm_num)
  have h13 := randomRange_mem seed 13 (6/10) (16/10) (by norm_num)
  have h21 := randomRange_mem seed 21 (8/10) 3 (by norm_num)
  have h22 := randomRange_mem seed 22 2 6 (by norm_num)
  have h23 := randomRange_mem seed 23 (5/100) (5/10) (by norm_num)
  have h31 := randomRange_mem seed 31 (6/10) (25/10) (by norm_num)
  have h32 := randomRange_mem seed 32 1 4 (by norm_num)
  have h33 := randomRange_mem seed 33 (2/10) (12/10) (by norm_num)
  have h41 := randomRange_mem seed 41 (18/10) (22/10) (by norm_num)
  have h42 := randomRange_mem seed 42 (35/100) (6/10) (by norm_num)
  have o12 := ctrunc_mem 2 5 (randomRange seed 12 2 5)
    (by exact_mod_cast h12.1) (by exact_mod_cast h12.2) (by linarith [h12.1])
  have o22 := ctrunc_mem 2 6 (randomRange seed 22 2 6)
    (by exact_mod_cast h22.1) (by exact_mod_cast h22.2) (by linarith [h22.1])
  have o32 := ctrunc_mem 1 4 (randomRange seed 32 1 4)
    (by exact_mod_cast h32.1) (by exact_mod_cast h32.2) (by linarith [h32.1])
  exact ⟨h11, o12, h13, h21, o22, h23, h31, o32, h33, h41, h42⟩

/-- C7.  `fbm` returns exactly `0` when the octave count is nonpositive or
when the accumulated amplitude `maxAmp` comes out `0` (e.g. `gain = -1`
with two octaves): the guard in the source returns `0` instead of dividing
by the zero amplitude. -/
theorem fbm_zero_amplitude (t : List ℤ) (x y z : ℚ) (octaves : ℤ)
    (lac gain : ℚ)
    (h : octaves ≤ 0 ∨ (fbmAux t x y z lac gain octaves.toNat 1 1 0 0).2 = 0) :
    fbm t x y z octaves lac gain = 0 :=
  fbm_zero_of_maxAmp_zero t x y z octaves lac gain h

/-- C7 witness: zero octaves on the identity table. -/
theorem fbm_zero_amplitude_witness :
    ((0:ℤ) ≤ 0 ∨ (fbmAux rangeTable 0 0 0 2 (1/2) (Int.toNat 0) 1 1 0 0).2 = 0)
      ∧ fbm rangeTable 0 0 0 0 2 (1/2) = 0 :=
  ⟨Or.inl le_rfl,
   fbm_zero_amplitude rangeTable 0 0 0 0 2 (1/2) (Or.inl le_rfl)⟩

/-- C8.  Noise evaluation before any initialization does not fail: when
`perm_inited` is still false, `perlin` first builds the permutation table
from the fixed default seed `0` and then returns the (defined) value over
that table, leaving the state initialized. -/
theorem perlin_uninitialized_default (st : PlanetState) (x y z : ℚ)
    (h : st.permInited = false) :
    perlinRun st x y z = (perlin (buildPermTable 0) x y z, initNoiseState 0 st)
      ∧ (initNoiseState 0 st).permInited = true := by
  constructor
  · unfold perlinRun effState
    rw [h]
    simp [initNoiseState]
  · rfl

/-- C8 witness: the pristine start state (zeroed statics). -/
theorem perlin_uninitialized_default_witness :
    initialState.permInited = false ∧
    (perlinRun initialState 0 0 0
        = (perlin (buildPermTable 0) 0 0 0, initNoiseState 0 initialState)
      ∧ (initNoiseState 0 initialState).permInited = true) :=
  ⟨rfl, perlin_uninitialized_default initialState 0 0 0 rfl⟩

/-- C9.  After every initialization the permutation table is an ordered
sequence of 512 integers in `[0,255]` whose first 256 entries are a
permutation of `0..255` and whose entries at 256..511 duplicate them; the
invariant is re-established by every `init_planet` from any prior state,
and neither a height query nor a final-position query mutates the state
(in particular the table) until the next init. -/
theorem perm_table_invariant (s : ℤ) (sc r : ℚ) (prev : PlanetState)
    (sq : ℚ → ℚ) (x y z : ℚ) (v : Vec3) :
    (init_planet s sc r prev).permTable.length = 512 ∧
    (∀ e ∈ (init_planet s sc r prev).permTable, 0 ≤ e ∧ e ≤ 255) ∧
    List.Perm ((init_planet s sc r prev).permTable.take 256)
      ((List.range 256).map Int.ofNat) ∧
    (init_planet s sc r prev).permTable
      = (init_planet s sc r prev).permTable.take 256
        ++ (init_planet s sc r prev).permTable.take 256 ∧
    (get_heightRun sq (init_planet s sc r prev) x y z).2 = init_planet s sc r prev ∧
    (get_final_positionRun sq (init_planet s sc r prev) v).2
      = init_planet s sc r prev := by
  have hperm : (init_planet s sc r prev).permTable
      = buildPermTable ((s.emod 4294967296)).toNat := rfl
  have hinited : (init_planet s sc r prev).permInited = true := rfl
  refine ⟨?_, ?_, ?_, ?_, ?_, ?_⟩
  · rw [hperm]
    exact buildPermTable_length _
  · rw [hperm]
    exact buildPermTable_mem_bound _
  · rw [hperm, buildPermTable_take]
    exact shuffledHalf_perm _
  · rw [hperm]
    exact buildPermTable_dup _
  · exact run_state_stable sq _ x y z hinited
  · show (get_heightRun sq (init_planet s sc r prev)
        (normalize sq v).x (normalize sq v).y (normalize sq v).z).2
      = init_planet s sc r prev
    exact run_state_stable sq _ _ _ _ hinited

/-- C10.  Under the table invariant (every entry in `[0,255]`), every index
`perlin` uses to read the 512-entry table — the masked cells `X Y Z`, the
derived `A B` and corner indices `AA AB BA BB`, and all their `+1`
offsets — lies in `[0, 511]`, so no table access is out of bounds. -/
theorem perlin_indices_in_bounds (t : List ℤ) (x y z : ℚ)
    (hB : ∀ e ∈ t, 0 ≤ e ∧ e ≤ 255) :
    ∀ i ∈ perlinIndices t x y z, 0 ≤ i ∧ i < 512 := by
  intro i hi
  have hg : ∀ j : ℤ, 0 ≤ tblGet t j ∧ tblGet t j ≤ 255 := tblGet_bound t hB
  have hX0 : 0 ≤ (⌊x⌋ : ℤ).emod 256 := Int.emod_nonneg _ (by norm_num)
  have hX1 : (⌊x⌋ : ℤ).emod 256 < 256 := Int.emod_lt_of_pos _ (by norm_num)
  have hY0 : 0 ≤ (⌊y⌋ : ℤ).emod 256 := Int.emod_nonneg _ (by norm_num)
  have hY1 : (⌊y⌋ : ℤ).emod 256 < 256 := Int.emod_lt_of_pos _ (by norm_num)
  have hZ0 : 0 ≤ (⌊z⌋ : ℤ).emod 256 := Int.emod_nonneg _ (by norm_num)
  have hZ1 : (⌊z⌋ : ℤ).emod 256 < 256 := Int.emod_lt_of_pos _ (by norm_num)
  obtain ⟨ha0, ha1⟩ := hg ((⌊x⌋ : ℤ).emod 256)
  obtain ⟨hb0, hb1⟩ := hg ((⌊x⌋ : ℤ).emod 256 + 1)
  obtain ⟨hc0, hc1⟩ := hg (tblGet t ((⌊x⌋ : ℤ).emod 256) + (⌊y⌋ : ℤ).emod 256)
  obtain ⟨hd0, hd1⟩ :=
    hg (tblGet t ((⌊x⌋ : ℤ).emod 256) + (⌊y⌋ : ℤ).emod 256 + 1)
  obtain ⟨he0, he1⟩ :=
    hg (tblGet t ((⌊x⌋ : ℤ).emod 256 + 1) + (⌊y⌋ : ℤ).emod 256)
  obtain ⟨hf0, hf1⟩ :=
    hg (tblGet t ((⌊x⌋ : ℤ).emod 256 + 1) + (⌊y⌋ : ℤ).emod 256 + 1)
  simp only [perlinIndices, List.mem_cons, List.not_mem_nil, or_false] at hi
  rcases hi with rfl | rfl | rfl | rfl | rfl | rfl | rfl | rfl | rfl | rfl
    | rfl | rfl | rfl | rfl <;> constructor <;> omega

/-- C10 witness: the identity table at the origin. -/
theorem perlin_indices_in_bounds_witness :
    (∀ e ∈ rangeTable, 0 ≤ e ∧ e ≤ 255) ∧
    ∀ i ∈ perlinIndices rangeTable 0 0 0, 0 ≤ i ∧ i < 512 :=
  ⟨rangeTable_mem_bound,
   perlin_indices_in_bounds rangeTable 0 0 0 rangeTable_mem_bound⟩

/-- C5 counterexample: the claimed bound `fbm ∈ [0,1]` (for octaves ≥ 1 and
documented gain/lacunarity ranges, over any table satisfying the
permutation invariant) is false: on the valid table `cexTable` at
`(71/200, 963/2000, 1/2)` with one octave, `gain = 1/2`, `lacunarity = 2`,
the single remapped perlin sample — and hence `fbm` — exceeds `1`. -/
theorem fbm_unit_bound_cex :
    ¬ (∀ t : List ℤ, PermTableOK t →
        ∀ (x y z : ℚ) (octaves : ℤ) (lac gain : ℚ),
        1 ≤ octaves → 7/20 ≤ gain → gain < 3/5 → 9/5 ≤ lac → lac < 11/5 →
        0 ≤ fbm t x y z octaves lac gain ∧ fbm t x y z octaves lac gain ≤ 1
          ∧ 0 ≤ ridged_fbm t x y z octaves lac gain) := by
  intro hclaim
  have h := hclaim cexTable cexTable_ok (71/200) (963/2000) (1/2) 1 2 (1/2)
    le_rfl (by norm_num) (by norm_num) (by norm_num) (by norm_num)
  have hfx : ⌊(71/200 : ℚ)⌋ = 0 := by
    rw [Int.floor_eq_zero_iff, Set.mem_Ico]
    constructor <;> norm_num
  have hfy : ⌊(963/2000 : ℚ)⌋ = 0 := by
    rw [Int.floor_eq_zero_iff, Set.mem_Ico]
    constructor <;> norm_num
  have hfz : ⌊(1/2 : ℚ)⌋ = 0 := by
    rw [Int.floor_eq_zero_iff, Set.mem_Ico]
    constructor <;> norm_num
  have hpEq : perlin cexTable (71/200) (963/2000) (1/2)
      = perlinLattice cexTable 0 0 0 (71/200) (963/2000) (1/2) := by
    unfold perlin
    rw [hfx, hfy, hfz]
    norm_num
  have e0 : tblGet cexTable 0 = 10 := by decide
  have e1 : tblGet cexTable 1 = 30 := by decide
  have e10 : tblGet cexTable 10 = 50 := by decide
  have e11 : tblGet cexTable 11 = 70 := by decide
  have e30 : tblGet cexTable 30 = 90 := by decide
  have e31 : tblGet cexTable 31 = 110 := by decide
  have e50 : tblGet cexTable 50 = 8 := by decide
  have e51 : tblGet cexTable 51 = 26 := by decide
  have e70 : tblGet cexTable 70 = 9 := by decide
  have e71 : tblGet cexTable 71 = 11 := by decide
  have e90 : tblGet cexTable 90 = 5 := by decide
  have e91 : tblGet cexTable 91 = 7 := by decide
  have e110 : tblGet cexTable 110 = 3 := by decide
  have e111 : tblGet cexTable 111 = 19 := by decide
  have hlat : 1 < perlinLattice cexTable 0 0 0 (71/200) (963/2000) (1/2) := by
    norm_num [perlinLattice, grad, fadef, lerpf, e0, e1, e10, e11, e30, e31,
      e50, e51, e70, e71, e90, e91, e110, e111]
  have hstep : fbmAux cexTable (71/200) (963/2000) (1/2) 2 (1/2) 1 1 1 0 0
      = (0 + (perlin cexTable ((71/200) * 1) ((963/2000) * 1) ((1/2) * 1)
          * (1/2) + 1/2) * 1, 0 + 1) := rfl
  have hfbm : fbm cexTable (71/200) (963/2000) (1/2) 1 2 (1/2)
      = perlin cexTable (71/200) (963/2000) (1/2) * (1/2) + 1/2 := by
    unfold fbm
    rw [show ((1:ℤ)).toNat = 1 from rfl, hstep,
      if_neg (by norm_num : ¬ ((0:ℚ) + 1 = 0))]
    rw [mul_one, mul_one, mul_one, mul_one]
    norm_num
  have hgt : 1 < fbm cexTable (71/200) (963/2000) (1/2) 1 2 (1/2) := by
    rw [hfbm, hpEq]
    linarith
  linarith [h.2.1, hgt]

/-- C5 (amended).  For every table satisfying the permutation invariant,
every input, octave count ≥ 1 and gain/lacunarity in the documented
ranges, `fbm` lies in `[-1/4, 5/4]` — each remapped octave sample
`(perlin+1)/2` lies in that interval because `|perlin| ≤ 3/2`, and `fbm`
is the amplitude-weighted average of the samples (the tighter `[0,1]` of
the original claim fails, see the counterexample); `ridged_fbm` is
nonnegative as claimed. -/
theorem fbm_ridged_amended_bounds (t : List ℤ) (hT : PermTableOK t)
    (x y z : ℚ) (octaves : ℤ) (lac gain : ℚ) (hoct : 1 ≤ octaves)
    (hg1 : 7/20 ≤ gain) (hg2 : gain < 3/5) (hl1 : 9/5 ≤ lac)
    (hl2 : lac < 11/5) :
    -(1/4) ≤ fbm t x y z octaves lac gain
      ∧ fbm t x y z octaves lac gain ≤ 5/4
      ∧ 0 ≤ ridged_fbm t x y z octaves lac gain := by
  have hb := fbm_bound t x y z octaves lac gain (by linarith)
  exact ⟨hb.1, hb.2, ridged_fbm_nonneg t x y z octaves lac gain⟩

/-- C5 amended witness: the identity table, one octave, `gain = 1/2`,
`lacunarity = 2`. -/
theorem fbm_ridged_amended_bounds_witness :
    PermTableOK rangeTable ∧ (1:ℤ) ≤ 1 ∧ (7/20 : ℚ) ≤ 1/2 ∧ (1/2 : ℚ) < 3/5
      ∧ (9/5 : ℚ) ≤ 2 ∧ (2 : ℚ) < 11/5
      ∧ (-(1/4) ≤ fbm rangeTable 0 0 0 1 2 (1/2)
          ∧ fbm rangeTable 0 0 0 1 2 (1/2) ≤ 5/4
          ∧ 0 ≤ ridged_fbm rangeTable 0 0 0 1 2 (1/2)) :=
  ⟨rangeTable_ok, le_rfl, by norm_num, by norm_num, by norm_num, by norm_num,
   fbm_ridged_amended_bounds rangeTable rangeTable_ok 0 0 0 1 2 (1/2) le_rfl
     (by norm_num) (by norm_num) (by norm_num) (by norm_num)⟩

end Planet
